import Mathlib

/-
Shallow embedding of the numerical core of the cosmic-superstring SGWB
inference pipeline (src/lib/physics.js, src/lib/mcmc.js, src/lib/analysis.js).

Modelling conventions:
* JavaScript numbers are modelled as exact rationals (`ℚ`) wherever the code
  manipulates finite values, and as the four-constructor type `Flt`
  (NaN, -Infinity, +Infinity, finite) wherever the code can produce or
  compare IEEE special values (log-likelihoods, log-posteriors, the
  credible-level cumulative fraction).  Floating-point rounding is not
  modelled; the claims under study are about control flow and exact values.
* The transcendental library functions used by the source (`Math.exp`,
  `Math.log` on positive arguments, `Math.sqrt`, non-integer `Math.pow`,
  `Math.PI`) have no exact rational values; they are abstracted as the
  fields of a `Prims` record, and every theorem is quantified over an
  arbitrary `Prims`.  Integer powers (`Math.pow(t, 4)`, `Math.pow(Gmu, 2)`,
  `Math.pow(H0, 2)`, the squaring in the stretch move) are exact and are
  modelled directly.
* `Math.log10` feeding the prior box test is modelled by `Log10Val`:
  the value `log10 q` for `q > 0` is carried symbolically as `Log10Val.val q`,
  and its IEEE comparison against an integer bound `n` is the exact rational
  comparison with `10^n` (log10 is strictly monotone); `log10 0 = -Infinity`
  and `log10` of a negative number is NaN, exactly as in JavaScript.
* The module-level single-slot cosmology cache of physics.js is modelled
  explicitly as a state value (`CacheState`) threaded through
  `buildCosmologyCache`; the pure table construction it memoizes is
  `buildTable`.  `calculateOmegaGW` uses `buildTable` directly; the theorems
  about the cache layer show the two agree on every reachable cache state.
  The JavaScript cache key is the string `zMax + ":" + nz`, which is an
  injective function of the number pair, so the key is modelled as the pair.
* The `while (j === w)` resampling loop of the ensemble sampler may consume
  arbitrarily many random draws, so it is modelled with an explicit fuel
  parameter; `none` models a run of the loop that never terminates.  The
  random source `Math.random` is modelled as an arbitrary sequence
  `rng : ℕ → ℚ` of draws, consumed in exactly the source order.
-/

namespace SGWB

/-- Model of a JavaScript IEEE double restricted to the values this code
distinguishes: NaN, the two infinities, and exact finite values. -/
inductive Flt where
  | nan : Flt
  | negInf : Flt
  | posInf : Flt
  | num (q : ℚ) : Flt
deriving DecidableEq, Repr

namespace Flt

/-- IEEE addition on `Flt` (NaN absorbs; opposite infinities give NaN). -/
def add : Flt → Flt → Flt
  | nan, _ => nan
  | _, nan => nan
  | negInf, posInf => nan
  | posInf, negInf => nan
  | negInf, _ => negInf
  | _, negInf => negInf
  | posInf, _ => posInf
  | _, posInf => posInf
  | num a, num b => num (a + b)

/-- IEEE subtraction on `Flt` (NaN absorbs; like infinities give NaN). -/
def sub : Flt → Flt → Flt
  | nan, _ => nan
  | _, nan => nan
  | negInf, negInf => nan
  | posInf, posInf => nan
  | negInf, _ => negInf
  | posInf, _ => posInf
  | num _, negInf => posInf
  | num _, posInf => negInf
  | num a, num b => num (a - b)

/-- IEEE strict less-than on `Flt`; any comparison with NaN is false. -/
def lt : Flt → Flt → Bool
  | nan, _ => false
  | _, nan => false
  | negInf, negInf => false
  | negInf, _ => true
  | _, negInf => false
  | posInf, _ => false
  | _, posInf => true
  | num a, num b => decide (a < b)

/-- IEEE greater-or-equal on `Flt`; any comparison with NaN is false,
otherwise the negation of strict less-than. -/
def ge (x y : Flt) : Bool :=
  match x, y with
  | nan, _ => false
  | _, nan => false
  | _, _ => ! x.lt y

/-- JavaScript `isFinite`. -/
def isFinite : Flt → Bool
  | num _ => true
  | _ => false

end Flt

/-- JavaScript division of two finite values (rationals carry no signed
zero, so a nonzero value divided by zero takes the sign of the numerator). -/
def jsDiv (a b : ℚ) : Flt :=
  if b = 0 then (if a = 0 then .nan else if 0 < a then .posInf else .negInf)
  else .num (a / b)

/-- Abstraction of the transcendental `Math` primitives used by the source.
Each field stands for the corresponding double-precision library function;
the development proves its theorems for every choice of these functions. -/
structure Prims where
  sqrt : ℚ → ℚ
  powr : ℚ → ℚ → ℚ
  exp : ℚ → ℚ
  log : ℚ → ℚ
  pi : ℚ

/-- JavaScript `Math.log`: natural log via `Prims.log` on positive
arguments, `-Infinity` at zero, NaN on negative arguments. -/
def jsLog (pr : Prims) (q : ℚ) : Flt :=
  if 0 < q then .num (pr.log q) else if q = 0 then .negInf else .nan

/-! ### physics.js : constants and cosmology table -/

/-- Constant `CONSTANTS.H0` (Hubble constant in Hz). -/
def H0 : ℚ := 2.184e-18
/-- Constant `CONSTANTS.G_N` (Newton constant). -/
def G_N : ℚ := 6.674e-11
/-- Constant `CONSTANTS.Omega_m`. -/
def Omega_m : ℚ := 0.315
/-- Constant `CONSTANTS.Omega_Lambda`. -/
def Omega_Lambda : ℚ := 0.685

/-- The redshift-grid row computed by the loop body of
`buildCosmologyCache` at index `i`: `(z, t, |dt/dz|, H)`. -/
def cosmoRow (pr : Prims) (zMax : ℚ) (nz : ℕ) (i : ℕ) : ℚ × ℚ × ℚ × ℚ :=
  let z := zMax * (i : ℚ) / ((nz : ℚ) - 1)
  let a := 1 / (1 + z)
  let Ez := pr.sqrt (Omega_m * (1 + z) ^ 3 + Omega_Lambda)
  let Hz := H0 * Ez
  let t := (2 / 3) / H0 * pr.powr a (3 / 2)
  let dtdz := 1 / (Hz * (1 + z))
  (z, t, dtdz, Hz)

/-- The cosmology lookup table built by `buildCosmologyCache`. -/
structure CosmoTable where
  zMax : ℚ
  nz : ℕ
  z : List ℚ
  t : List ℚ
  dtdz : List ℚ
  H : List ℚ
deriving DecidableEq, Repr

/-- The pure table construction performed by the rebuild path of
`buildCosmologyCache` (the memo layer is modelled separately below). -/
def buildTable (pr : Prims) (zMax : ℚ) (nz : ℕ) : CosmoTable :=
  { zMax := zMax
    nz := nz
    z := (List.range nz).map fun i => (cosmoRow pr zMax nz i).1
    t := (List.range nz).map fun i => (cosmoRow pr zMax nz i).2.1
    dtdz := (List.range nz).map fun i => (cosmoRow pr zMax nz i).2.2.1
    H := (List.range nz).map fun i => (cosmoRow pr zMax nz i).2.2.2 }

/-- State of the module-level single-slot cosmology cache:
either empty or one `(key, table)` entry. -/
abbrev CacheState := Option ((ℚ × ℕ) × CosmoTable)

/-- Source function `buildCosmologyCache(zMax, nz)` with the module-level cache made
explicit: return the cached table when the key matches, otherwise rebuild
and replace the single slot. -/
def buildCosmologyCache (pr : Prims) (zMax : ℚ) (nz : ℕ) (st : CacheState) :
    CosmoTable × CacheState :=
  match st with
  | some (key, tbl) =>
      if key = (zMax, nz) then (tbl, some (key, tbl))
      else
        let t := buildTable pr zMax nz
        (t, some ((zMax, nz), t))
  | none =>
      let t := buildTable pr zMax nz
      (t, some ((zMax, nz), t))

/-- A sequence of `buildCosmologyCache` calls, tracking only the cache
state they leave behind. -/
def runCacheCalls (pr : Prims) : List (ℚ × ℕ) → CacheState → CacheState
  | [], st => st
  | c :: cs, st => runCacheCalls pr cs (buildCosmologyCache pr c.1 c.2 st).2

/-! ### physics.js : interpolation, adaptive Simpson, spectrum -/

/-- The binary-search loop of `interpolate`: narrows `[lo, hi]` until
`hi - lo ≤ 1`, moving `lo` to the midpoint when `xArr[mid] ≤ x`. -/
def interpSearch (xArr : List ℚ) (x : ℚ) (lo hi : ℕ) : ℕ × ℕ :=
  if h : 1 < hi - lo then
    let mid := (lo + hi) / 2
    if xArr.getD mid 0 ≤ x then interpSearch xArr x mid hi
    else interpSearch xArr x lo mid
  else (lo, hi)
termination_by hi - lo
decreasing_by
  · omega
  · omega

/-- Source function `interpolate(x, xArr, yArr)`: clamped linear interpolation with a
binary search for the bracketing pair.  Out-of-range list reads are
modelled with default `0`; in the source they only occur off the stated
equal-length precondition. -/
def interpolate (x : ℚ) (xArr yArr : List ℚ) : ℚ :=
  let n := xArr.length
  if x ≤ xArr.getD 0 0 then yArr.getD 0 0
  else if xArr.getD (n - 1) 0 ≤ x then yArr.getD (n - 1) 0
  else
    let lh := interpSearch xArr x 0 (n - 1)
    let t := (x - xArr.getD lh.1 0) / (xArr.getD lh.2 0 - xArr.getD lh.1 0)
    yArr.getD lh.1 0 * (1 - t) + yArr.getD lh.2 0 * t

/-- Source function `harmonicCoeffs(Nk)`: mode weights `Γ / (k+1)^(4/3)` with `Γ = 50`. -/
def harmonicCoeffs (pr : Prims) (Nk : ℕ) : List ℚ :=
  (List.range Nk).map fun k => 50 / pr.powr ((k : ℚ) + 1) (4 / 3)

/-- Source function `simpson(a, b, fa, fb, fm)`. -/
def simpson (a b fa fb fm : ℚ) : ℚ :=
  (b - a) * (fa + 4 * fm + fb) / 6

/-- The recursive worker `rec` of `adaptiveSimpson`: bisect, compare the
refined estimate with the coarse one, and return the Richardson-corrected
refined estimate when the depth budget is exhausted or the error test
passes, otherwise recurse into both halves with halved tolerance. -/
def adaptiveSimpsonRec (f : ℚ → ℚ) (a0 b0 fa0 fb0 fm0 I0 tol0 : ℚ)
    (depth : ℤ) : ℚ :=
  let m0 := (a0 + b0) / 2
  let m1 := (a0 + m0) / 2
  let m2 := (m0 + b0) / 2
  let fm1 := f m1
  let fm2 := f m2
  let Ileft := simpson a0 m0 fa0 fm0 fm1
  let Iright := simpson m0 b0 fm0 fb0 fm2
  let I2 := Ileft + Iright
  let err := |I2 - I0|
  if h : depth ≤ 0 ∨ err < 15 * tol0 then I2 + (I2 - I0) / 15
  else
    adaptiveSimpsonRec f a0 m0 fa0 fm0 fm1 Ileft (tol0 / 2) (depth - 1) +
    adaptiveSimpsonRec f m0 b0 fm0 fb0 fm2 Iright (tol0 / 2) (depth - 1)
termination_by depth.toNat
decreasing_by
  · omega
  · omega

/-- Instrumented copy of `adaptiveSimpsonRec` that also counts the number
of integrand evaluations performed (two per call). -/
def adaptiveSimpsonRecCnt (f : ℚ → ℚ) (a0 b0 fa0 fb0 fm0 I0 tol0 : ℚ)
    (depth : ℤ) : ℚ × ℕ :=
  let m0 := (a0 + b0) / 2
  let m1 := (a0 + m0) / 2
  let m2 := (m0 + b0) / 2
  let fm1 := f m1
  let fm2 := f m2
  let Ileft := simpson a0 m0 fa0 fm0 fm1
  let Iright := simpson m0 b0 fm0 fb0 fm2
  let I2 := Ileft + Iright
  let err := |I2 - I0|
  if h : depth ≤ 0 ∨ err < 15 * tol0 then (I2 + (I2 - I0) / 15, 2)
  else
    let L := adaptiveSimpsonRecCnt f a0 m0 fa0 fm0 fm1 Ileft (tol0 / 2) (depth - 1)
    let R := adaptiveSimpsonRecCnt f m0 b0 fm0 fb0 fm2 Iright (tol0 / 2) (depth - 1)
    (L.1 + R.1, 2 + L.2 + R.2)
termination_by depth.toNat
decreasing_by
  · omega
  · omega

/-- Source function `adaptiveSimpson(f, a, b, tol, maxDepth)`: top-level driver computing
the coarse Simpson estimate and handing off to the recursive worker. -/
def adaptiveSimpson (f : ℚ → ℚ) (a b tol : ℚ) (maxDepth : ℤ) : ℚ :=
  let fa := f a
  let fb := f b
  let m := (a + b) / 2
  let fm := f m
  let I1 := simpson a b fa fb fm
  adaptiveSimpsonRec f a b fa fb fm I1 tol maxDepth

/-- Record `PhysicsOptions` with the source defaults. -/
structure PhysicsOptions where
  Nk : ℕ := 50
  alpha : ℚ := 1 / 10
  beta : ℚ := 1
  zMax : ℚ := 10
  nz : ℕ := 600
  adaptiveTol : ℚ := 1 / 10000
deriving DecidableEq, Repr

/-- Source function `calculateOmegaGW(f, Gmu, P, options)`: zero on any non-positive input,
otherwise the adaptive Simpson integral over redshift of the harmonic-sum
integrand.  The cosmology table is the (deterministic) value the memoized
`buildCosmologyCache` returns for `(zMax, nz)`. -/
def calculateOmegaGW (pr : Prims) (f Gmu P : ℚ) (opts : PhysicsOptions) : ℚ :=
  if ¬ (0 < f) ∨ ¬ (0 < Gmu) ∨ ¬ (0 < P) then 0
  else
    let cache := buildTable pr opts.zMax opts.nz
    let Ceff := (1 / 10) * pr.powr P (-(3 / 5))
    let rho_c := 3 * H0 ^ 2 / (8 * pr.pi * G_N)
    let hCoeffs := harmonicCoeffs pr opts.Nk
    let integrand := fun z =>
      let t := interpolate z cache.z cache.t
      let dtdz := interpolate z cache.z cache.dtdz
      if ¬ (0 < t) then 0
      else
        let dRhodt := Ceff / (opts.alpha * t ^ 4) * pr.powr Gmu (-opts.beta)
        let fObs := f * (1 + z)
        let harmonicSum := (List.range opts.Nk).foldl
          (fun (s : ℚ) (k : ℕ) =>
            let kVal := (k : ℚ) + 1
            let Pk := hCoeffs.getD k 0 * Gmu ^ 2
            s + 2 * kVal / fObs * Pk * dRhodt / rho_c) 0
        harmonicSum * dtdz
    adaptiveSimpson integrand 0 opts.zMax opts.adaptiveTol 22

/-! ### mcmc.js : likelihoods, prior, posterior -/

/-- Source function `upperLimitLogLikelihood(model, upperLimit, sigma)`. -/
def upperLimitLogLikelihood (model upperLimit sigma : ℚ) : Flt :=
  if ¬ (0 < sigma) then .negInf
  else if upperLimit < model then
    let delta := (model - upperLimit) / sigma
    .num (-(1 / 2) * delta * delta)
  else .num 0

/-- Symbolic model of the value `Math.log10 q`: NaN on negatives,
`-Infinity` at zero, and for `q > 0` the real number `log10 q`, carried
as its (positive) argument. -/
inductive Log10Val where
  | nan : Log10Val
  | negInf : Log10Val
  | val (q : ℚ) : Log10Val
deriving DecidableEq, Repr

/-- JavaScript `Math.log10`. -/
def jsLog10 (q : ℚ) : Log10Val :=
  if 0 < q then .val q else if q = 0 then .negInf else .nan

/-- IEEE comparison `log10val < n` for an integer bound `n`.  Since log10
is strictly monotone, for a positive argument `q` this is exactly
`q < 10^n`; NaN compares false, `-Infinity` compares true. -/
def Log10Val.ltZ : Log10Val → ℤ → Bool
  | .nan, _ => false
  | .negInf, _ => true
  | .val q, n => decide (q < (10 : ℚ) ^ n)

/-- IEEE comparison `log10val > n` for an integer bound `n`: for a
positive argument `q` this is exactly `10^n < q`; NaN and `-Infinity`
compare false. -/
def Log10Val.gtZ : Log10Val → ℤ → Bool
  | .nan, _ => false
  | .negInf, _ => false
  | .val q, n => decide ((10 : ℚ) ^ n < q)

/-- Source function `logPrior(Gmu, logP)`: flat prior on the box
`log10 Gmu ∈ [-15, -6]`, `logP ∈ [-4, 0]`. -/
def logPrior (Gmu logP : ℚ) : Flt :=
  let logGmu := jsLog10 Gmu
  if logGmu.ltZ (-15) || logGmu.gtZ (-6) then .negInf
  else if logP < -4 ∨ 0 < logP then .negInf
  else .num 0

/-- The PTA observation dataset (equal-length arrays precondition). -/
structure PTAData where
  frequencies : List ℚ
  upperLimits : List ℚ
  errors : List ℚ
deriving DecidableEq, Repr

/-- The LISA forecast dataset. -/
structure LISAData where
  frequencies : List ℚ
  omegaForecast : List ℚ
  sigma : List ℚ
deriving DecidableEq, Repr

/-- Source function `logLikelihoodPTA(Gmu, logP, ptaData, physicsOptions)`: sum of the
one-sided upper-limit log-likelihoods over all frequency bins. -/
def logLikelihoodPTA (pr : Prims) (Gmu logP : ℚ) (pta : PTAData)
    (phys : PhysicsOptions) : Flt :=
  let P := pr.powr 10 logP
  (List.range pta.frequencies.length).foldl
    (fun logL i =>
      let f := pta.frequencies.getD i 0
      let model := calculateOmegaGW pr f Gmu P phys
      logL.add
        (upperLimitLogLikelihood model (pta.upperLimits.getD i 0)
          (pta.errors.getD i 0)))
    (.num 0)

/-- Source function `logLikelihoodLISA(Gmu, logP, lisaData, physicsOptions)`: two-sided
Gaussian residual likelihood, skipping bins with non-positive sigma;
`0` when the dataset is absent or empty. -/
def logLikelihoodLISA (pr : Prims) (Gmu logP : ℚ) (lisa : Option LISAData)
    (phys : PhysicsOptions) : Flt :=
  match lisa with
  | none => .num 0
  | some d =>
      if d.frequencies.length = 0 then .num 0
      else
        let P := pr.powr 10 logP
        (List.range d.frequencies.length).foldl
          (fun logL i =>
            let f := d.frequencies.getD i 0
            let model := calculateOmegaGW pr f Gmu P phys
            let s := d.sigma.getD i 0
            if ¬ (0 < s) then logL
            else
              let r := (model - d.omegaForecast.getD i 0) / s
              logL.add (.num (-(1 / 2) * r * r)))
          (.num 0)

/-- The options record consumed by `logPosterior`. -/
structure PostOptions where
  physicsOptions : PhysicsOptions := {}
  lisaData : Option LISAData := none
  useLISA : Bool := false

/-- Source function `logPosterior(Gmu, logP, ptaData, options)`: short-circuits to
`-Infinity` on the first non-finite component, otherwise sums them. -/
def logPosterior (pr : Prims) (Gmu logP : ℚ) (pta : PTAData)
    (opts : PostOptions) : Flt :=
  let lp := logPrior Gmu logP
  if ¬ lp.isFinite then .negInf
  else
    let llPta := logLikelihoodPTA pr Gmu logP pta opts.physicsOptions
    if ¬ llPta.isFinite then .negInf
    else
      let llLisa :=
        if opts.useLISA then
          logLikelihoodLISA pr Gmu logP opts.lisaData opts.physicsOptions
        else .num 0
      if ¬ llLisa.isFinite then .negInf
      else (lp.add llPta).add llLisa

/-! ### mcmc.js : ensemble sampler -/

/-- One walker of the ensemble. -/
structure Walker where
  Gmu : ℚ
  logP : ℚ
  logProb : Flt
deriving DecidableEq, Repr

instance : Inhabited Walker := ⟨⟨0, 0, .nan⟩⟩

/-- Sampler invocation options with the source defaults.  The progress
callback has no effect on the returned result and is not modelled. -/
structure MCMCOptions where
  nSteps : ℕ := 2000
  nWalkers : ℕ := 32
  burnIn : ℚ := 1 / 2
  physicsOptions : PhysicsOptions := {}
  lisaData : Option LISAData := none
  useLISA : Bool := false
  progressEvery : ℕ := 50

/-- The fixed stretch-move scale `const a = 2.0`. -/
def mcmcA : ℚ := 2

/-- JavaScript `Math.floor` of a non-negative draw, used to index the ensemble. -/
def jsFloorNat (q : ℚ) : ℕ := (Int.floor q).toNat

/-- The walker created by the `Array.from` initializer for index `i`;
each initializer consumes two draws, so walker `i` reads draws `2i`
(for `Gmu`) and `2i+1` (for `logP`) of the random sequence. -/
def initWalker (pr : Prims) (rng : ℕ → ℚ) (i : ℕ) : Walker :=
  { Gmu := 1e-11 * pr.exp ((3 / 10) * (rng (2 * i) - 1 / 2))
    logP := -2 + (1 / 2) * (rng (2 * i + 1) - 1 / 2)
    logProb := .negInf }

/-- The `while (j === w)` complementary-walker selection loop: draw
`Math.floor(rng() * nWalkers)` starting at sequence position `i` until it
differs from `w`; returns the chosen index and the next sequence
position, or `none` when `fuel` retries are exhausted (modelling a
non-terminating run of the loop). -/
def pickJ (rng : ℕ → ℚ) (nW w : ℕ) : ℕ → ℕ → Option (ℕ × ℕ)
  | _, 0 => none
  | i, fuel + 1 =>
      let j := jsFloorNat (rng i * (nW : ℚ))
      if j = w then pickJ rng nW w (i + 1) fuel else some (j, i + 1)

/-- The stretch-move proposal built from the complementary walker `comp`
and the current walker `cur` with stretch factor `z`. -/
def propose (comp cur : Walker) (z : ℚ) : ℚ × ℚ :=
  (comp.Gmu + z * (cur.Gmu - comp.Gmu), comp.logP + z * (cur.logP - comp.logP))

/-- Mutable state of a sampler run: the walker ensemble, the retained
samples and log-probabilities, the acceptance counters, and the position
reached in the random sequence. -/
structure RunState where
  walkers : List Walker
  samples : List (ℚ × ℚ)
  logProbs : List Flt
  acceptances : ℕ
  totalMoves : ℕ
  idx : ℕ
deriving DecidableEq, Repr

/-- The body of the inner walker loop of `runEnsembleMCMC`: pick a
complementary walker, draw the stretch factor, evaluate the proposal's
log-posterior, decide acceptance by `Math.log(rng()) < log z + Δ`,
update the ensemble and counters, and record the (possibly updated)
walker when past burn-in. -/
def walkerUpdate (pr : Prims) (pta : PTAData) (popts : PostOptions)
    (rng : ℕ → ℚ) (nW fuel burnStart step w : ℕ) (st : RunState) :
    Option RunState :=
  match pickJ rng nW w st.idx fuel with
  | none => none
  | some (j, i1) =>
      let cur := st.walkers.getD w default
      let comp := st.walkers.getD j default
      let z := ((mcmcA - 1) * rng i1 + 1) ^ 2 / mcmcA
      let prop := propose comp cur z
      let propLP := logPosterior pr prop.1 prop.2 pta popts
      let logAccept := (jsLog pr z).add (propLP.sub cur.logProb)
      let accept := (jsLog pr (rng (i1 + 1))).lt logAccept
      let walkers1 :=
        if accept then st.walkers.set w ⟨prop.1, prop.2, propLP⟩ else st.walkers
      let acc1 := if accept then st.acceptances + 1 else st.acceptances
      let wNow := walkers1.getD w default
      some
        { walkers := walkers1
          samples :=
            if burnStart ≤ step then st.samples ++ [(wNow.Gmu, wNow.logP)]
            else st.samples
          logProbs :=
            if burnStart ≤ step then st.logProbs ++ [wNow.logProb]
            else st.logProbs
          acceptances := acc1
          totalMoves := st.totalMoves + 1
          idx := i1 + 2 }

/-- The inner loop over walker indices of one sweep. -/
def sweepFrom (pr : Prims) (pta : PTAData) (popts : PostOptions)
    (rng : ℕ → ℚ) (nW fuel burnStart step : ℕ) :
    List ℕ → RunState → Option RunState
  | [], st => some st
  | w :: ws, st =>
      match walkerUpdate pr pta popts rng nW fuel burnStart step w st with
      | none => none
      | some st1 => sweepFrom pr pta popts rng nW fuel burnStart step ws st1

/-- The outer loop over sweeps of `runEnsembleMCMC`. -/
def runFrom (pr : Prims) (pta : PTAData) (popts : PostOptions)
    (rng : ℕ → ℚ) (nW fuel burnStart : ℕ) :
    List ℕ → RunState → Option RunState
  | [], st => some st
  | s :: ss, st =>
      match sweepFrom pr pta popts rng nW fuel burnStart s (List.range nW) st with
      | none => none
      | some st1 => runFrom pr pta popts rng nW fuel burnStart ss st1

/-- The record returned by `runEnsembleMCMC`. -/
structure MCMCResult where
  samples : List (ℚ × ℚ)
  logProbs : List Flt
  acceptanceRate : ℚ
  nWalkers : ℕ
  nSteps : ℕ
  burnIn : ℚ
deriving DecidableEq, Repr

/-- Source function `runEnsembleMCMC(ptaData, options)`: initialize the walkers from the
fiducial neighborhood (consuming two draws per walker), evaluate their
log-posteriors, run `nSteps` sweeps of sequential stretch moves, and
return the post-burn-in samples with diagnostics.  `none` models a run
whose complementary-walker loop never terminates. -/
def runEnsembleMCMC (pr : Prims) (pta : PTAData) (opts : MCMCOptions)
    (rng : ℕ → ℚ) (fuel : ℕ) : Option MCMCResult :=
  let nW := opts.nWalkers
  let popts : PostOptions :=
    { physicsOptions := opts.physicsOptions
      lisaData := opts.lisaData
      useLISA := opts.useLISA }
  let walkers0 := (List.range nW).map fun i =>
    let w := initWalker pr rng i
    { w with logProb := logPosterior pr w.Gmu w.logP pta popts }
  let burnStart := (Int.floor ((opts.nSteps : ℚ) * opts.burnIn)).toNat
  let st0 : RunState :=
    { walkers := walkers0
      samples := []
      logProbs := []
      acceptances := 0
      totalMoves := 0
      idx := 2 * nW }
  match runFrom pr pta popts rng nW fuel burnStart (List.range opts.nSteps) st0 with
  | none => none
  | some st =>
      some
        { samples := st.samples
          logProbs := st.logProbs
          acceptanceRate := (st.acceptances : ℚ) / max 1 (st.totalMoves : ℚ)
          nWalkers := nW
          nSteps := opts.nSteps
          burnIn := opts.burnIn }

/-! ### analysis.js : credible levels -/

/-- The cumulative walk of `findCredibleLevels` over the descending-sorted
flat density list: accumulate `cum`, compare the cumulative fraction
(`cum / total`, a JavaScript division that is NaN on `0 / 0`) against the
two levels, latch the first density reaching each level, and stop at the
second. -/
def clWalk (total levelA levelB : ℚ) :
    List ℚ → ℚ → ℚ → ℚ → ℚ × ℚ
  | [], _, levA, levB => (levA, levB)
  | x :: rest, cum, levA, levB =>
      let cum1 := cum + x
      let frac := jsDiv cum1 total
      let levA1 := if frac.ge (.num levelA) && levA == 0 then x else levA
      if frac.ge (.num levelB) && levB == 0 then (levA1, x)
      else clWalk total levelA levelB rest cum1 levA1 levB

/-- Source function `findCredibleLevels(densityGrid, dict of levelA, levelB)`: flatten, sort
descending, and walk the cumulative mass.  The JavaScript
`sort((a, b) => b - a)` is modelled by a descending insertion sort
(observably: a sorted permutation). -/
def findCredibleLevels (densityGrid : List (List ℚ)) (levelA levelB : ℚ) :
    ℚ × ℚ :=
  let flat := List.insertionSort (· ≥ ·) densityGrid.flatten
  let total := flat.foldl (· + ·) 0
  clWalk total levelA levelB flat 0 0 0

/-- The value `I2 = Ileft + Iright` recomputed by one level of the
adaptive Simpson recursion, written without the local bindings. -/
def simpsonHalves (f : ℚ → ℚ) (a0 b0 fa0 fb0 fm0 : ℚ) : ℚ :=
  simpson a0 ((a0 + b0) / 2) fa0 fm0 (f ((a0 + (a0 + b0) / 2) / 2)) +
  simpson ((a0 + b0) / 2) b0 fm0 fb0 (f (((a0 + b0) / 2 + b0) / 2))

/-- The invariant of the single-slot cosmology cache: any stored table is
the pure table for its stored key. -/
def cacheGood (pr : Prims) (st : CacheState) : Prop :=
  ∀ k t, st = some (k, t) → t = buildTable pr k.1 k.2

/-- A concrete choice of transcendental primitives used by the closed
witness statements (the theorems hold for every `Prims`). -/
def prW : Prims :=
  { sqrt := fun _ => 1
    powr := fun _ _ => 1
    exp := fun _ => 1
    log := fun _ => 0
    pi := 3 }

/-- An empty PTA dataset, used by witness statements. -/
def ptaE : PTAData := ⟨[], [], []⟩

/-- A concrete random sequence for the sampler witness: every draw is
`1/2` except draw 7 (the complementary-walker pick of walker 1 in the
single sweep), which is `0` so that the pick differs from `1`. -/
def rngW : ℕ → ℚ := fun i => if i = 7 then 0 else 1 / 2

/-- Concrete sampler options for the witness run: two walkers, one sweep,
no burn-in. -/
def mcOptsW : MCMCOptions := { nSteps := 1, nWalkers := 2, burnIn := 0 }

/-- Default posterior options, used by witness statements. -/
def poptsW : PostOptions := {}

/-- The result record of the witness run `runEnsembleMCMC prW ptaE
mcOptsW rngW 3`: with the constant primitives of `prW` the log-acceptance
ratio and the log of the acceptance draw are both 0, the strict
comparison fails and both proposals are rejected, so each walker records
its initial position `(1e-11, -2)` with log-posterior 0. -/
def resW : MCMCResult :=
  { samples := [(1e-11, -2), (1e-11, -2)]
    logProbs := [Flt.num 0, Flt.num 0]
    acceptanceRate := 0
    nWalkers := 2
    nSteps := 1
    burnIn := 0 }

/-- A constant random sequence used by the degenerate-acceptance witness. -/
def rngC : ℕ → ℚ := fun _ => 1 / 2

/-- A concrete run state whose two walkers sit outside the prior box
(`Gmu = 1`) with log-probability already negative infinity. -/
def stC : RunState :=
  { walkers := [⟨1, 0, Flt.negInf⟩, ⟨1, 0, Flt.negInf⟩]
    samples := []
    logProbs := []
    acceptances := 0
    totalMoves := 0
    idx := 0 }

/-- The state after one (rejected, pre-burn-in) walker update from `stC`:
only the move counter and the random-sequence position advance. -/
def stC2 : RunState :=
  { walkers := [⟨1, 0, Flt.negInf⟩, ⟨1, 0, Flt.negInf⟩]
    samples := []
    logProbs := []
    acceptances := 0
    totalMoves := 1
    idx := 3 }

/-! ## Theorems -/

/-- Claim C1, counterexample: `logPrior` does not return negative infinity
on every pair outside the prior box.  At `Gmu = -1`, `logP = -2` the box
says "outside" (no negative `Gmu` has `log10 Gmu ∈ [-15, -6]`), yet
`Math.log10(-1)` is NaN, both NaN range comparisons are false, and the
function falls through to the `logP` test and returns `0`. -/
theorem logPrior_negativeGmu_counterexample :
    logPrior (-1) (-2) = Flt.num 0 ∧ Flt.num 0 ≠ Flt.negInf := by
  constructor
  · rfl
  · decide

/-- Claim C1, amended: `logPrior` returns 0 on the closed box
`log10 Gmu ∈ [-15, -6]`, `logP ∈ [-4, 0]` and negative infinity outside
it for every non-negative `Gmu` (including `Gmu = 0`, where `log10` is
`-Infinity`); for negative `Gmu`, however, `log10 Gmu` is NaN, the
`Gmu`-range test passes vacuously, and the result is decided by the
`logP` test alone. -/
theorem logPrior_box_amended (Gmu logP : ℚ) :
    ((10 : ℚ) ^ (-15 : ℤ) ≤ Gmu → Gmu ≤ (10 : ℚ) ^ (-6 : ℤ) → -4 ≤ logP →
      logP ≤ 0 → logPrior Gmu logP = Flt.num 0)
    ∧ (0 ≤ Gmu →
        (Gmu < (10 : ℚ) ^ (-15 : ℤ) ∨ (10 : ℚ) ^ (-6 : ℤ) < Gmu ∨
          logP < -4 ∨ 0 < logP) →
        logPrior Gmu logP = Flt.negInf)
    ∧ (Gmu < 0 → logPrior Gmu logP =
        (if logP < -4 ∨ 0 < logP then Flt.negInf else Flt.num 0)) := by
  have hpow15 : (0 : ℚ) < (10 : ℚ) ^ (-15 : ℤ) := by positivity
  refine ⟨?_, ?_, ?_⟩
  · intro h1 h2 h3 h4
    have hpos : (0 : ℚ) < Gmu := lt_of_lt_of_le hpow15 h1
    have hA : ¬ Gmu < (10 : ℚ) ^ (-15 : ℤ) := not_lt.2 h1
    have hB : ¬ (10 : ℚ) ^ (-6 : ℤ) < Gmu := not_lt.2 h2
    simp [logPrior, jsLog10, if_pos hpos, Log10Val.ltZ, Log10Val.gtZ,
      not_lt.2 h3, not_lt.2 h4]
    exact ⟨by simpa using h1, by simpa using h2⟩
  · intro h0 hout
    rcases eq_or_lt_of_le h0 with h0 | hpos
    · simp [logPrior, jsLog10, ← h0, Log10Val.ltZ]
    · rcases hout with h | h | h | h
      · have hA : (jsLog10 Gmu).ltZ (-15) = true := by
          simp only [jsLog10, if_pos hpos, Log10Val.ltZ, decide_eq_true_eq]
          exact h
        simp [logPrior, hA]
      · have hB : (jsLog10 Gmu).gtZ (-6) = true := by
          simp only [jsLog10, if_pos hpos, Log10Val.gtZ, decide_eq_true_eq]
          exact h
        simp [logPrior, hB]
      · simp only [logPrior, jsLog10, if_pos hpos, Log10Val.ltZ, Log10Val.gtZ]
        split
        · rfl
        · simp [h]
      · simp only [logPrior, jsLog10, if_pos hpos, Log10Val.ltZ, Log10Val.gtZ]
        split
        · rfl
        · simp [h]
  · intro hneg
    have h1 : ¬ (0 : ℚ) < Gmu := not_lt.2 hneg.le
    have h2 : ¬ Gmu = 0 := ne_of_lt hneg
    simp [logPrior, jsLog10, h1, h2, Log10Val.ltZ, Log10Val.gtZ]

/-- Claim C1, witness: the amended characterization evaluated at a point
inside the box, a point outside with non-negative `Gmu`, and a point with
negative `Gmu` outside the `logP` range. -/
theorem logPrior_box_amended_witness :
    logPrior (1e-11) (-2) = Flt.num 0 ∧ logPrior 1 0 = Flt.negInf ∧
      logPrior (-3) 1 = Flt.negInf := by
  refine ⟨(logPrior_box_amended (1e-11) (-2)).1 (by norm_num) (by norm_num)
      (by norm_num) (by norm_num),
    (logPrior_box_amended 1 0).2.1 (by norm_num)
      (Or.inr (Or.inl (by norm_num))), ?_⟩
  have h := (logPrior_box_amended (-3) 1).2.2 (by norm_num)
  simpa using h

/-- Claim C2: `calculateOmegaGW` returns exactly 0 whenever any of
`f`, `Gmu`, `P` is non-positive, for every options record and every
choice of the transcendental primitives. -/
theorem calculateOmegaGW_nonpositive_zero (pr : Prims) (f Gmu P : ℚ)
    (opts : PhysicsOptions) (h : f ≤ 0 ∨ Gmu ≤ 0 ∨ P ≤ 0) :
    calculateOmegaGW pr f Gmu P opts = 0 := by
  unfold calculateOmegaGW
  rw [if_pos]
  rcases h with h | h | h
  · exact Or.inl (not_lt.2 h)
  · exact Or.inr (Or.inl (not_lt.2 h))
  · exact Or.inr (Or.inr (not_lt.2 h))

/-- Claim C2, witness: a non-positive frequency with default options. -/
theorem calculateOmegaGW_nonpositive_zero_witness :
    ((0 : ℚ) ≤ 0 ∨ (1 : ℚ) ≤ 0 ∨ (1 : ℚ) ≤ 0) ∧
      calculateOmegaGW prW 0 1 1 {} = 0 :=
  ⟨Or.inl le_rfl,
    calculateOmegaGW_nonpositive_zero prW 0 1 1 {} (Or.inl le_rfl)⟩

/-- Claim C3: `upperLimitLogLikelihood` returns negative infinity when
`sigma ≤ 0`; otherwise exactly 0 when `model ≤ upperLimit` and the
one-sided Gaussian penalty `-0.5 ((model - upperLimit)/sigma)^2` when
`model > upperLimit`. -/
theorem upperLimitLogLikelihood_cases (model upperLimit sigma : ℚ) :
    (sigma ≤ 0 → upperLimitLogLikelihood model upperLimit sigma = Flt.negInf)
    ∧ (0 < sigma → model ≤ upperLimit →
        upperLimitLogLikelihood model upperLimit sigma = Flt.num 0)
    ∧ (0 < sigma → upperLimit < model →
        upperLimitLogLikelihood model upperLimit sigma =
          Flt.num (-(1 / 2) * ((model - upperLimit) / sigma) ^ 2)) := by
  refine ⟨?_, ?_, ?_⟩
  · intro h
    simp [upperLimitLogLikelihood, not_lt.2 h]
  · intro hs hm
    simp [upperLimitLogLikelihood, hs, not_lt.2 hm]
  · intro hs hm
    have h1 : ¬ ¬ (0 < sigma) := not_not_intro hs
    unfold upperLimitLogLikelihood
    rw [if_neg h1, if_pos hm]
    show Flt.num (-(1 / 2) * ((model - upperLimit) / sigma) *
          ((model - upperLimit) / sigma)) = _
    congr 1
    ring

/-- Claim C3, witness: the three branches at concrete inputs. -/
theorem upperLimitLogLikelihood_cases_witness :
    upperLimitLogLikelihood 0 1 (-1) = Flt.negInf ∧
      upperLimitLogLikelihood 0 1 1 = Flt.num 0 ∧
      upperLimitLogLikelihood 3 1 1 = Flt.num (-(1 / 2) * ((3 - 1) / 1) ^ 2) :=
  ⟨(upperLimitLogLikelihood_cases 0 1 (-1)).1 (by norm_num),
    (upperLimitLogLikelihood_cases 0 1 1).2.1 (by norm_num) (by norm_num),
    (upperLimitLogLikelihood_cases 3 1 1).2.2 (by norm_num) (by norm_num)⟩

/-- Folding addition over a list of zeros leaves the accumulator fixed. -/
theorem foldl_add_allZero (l : List ℚ) (h : ∀ x ∈ l, x = 0) :
    ∀ c : ℚ, l.foldl (· + ·) c = c := by
  induction l with
  | nil => intro c; rfl
  | cons x rest ih =>
      intro c
      have hx : x = 0 := h x (List.mem_cons_self x rest)
      have hr := ih fun y hy => h y (List.mem_cons_of_mem x hy)
      simp [hx, hr c]

/-- On an all-zero flat list with zero total, every cumulative fraction is
the NaN value `0 / 0`, both latch comparisons are false, and the walk
returns `(0, 0)`. -/
theorem clWalk_allZero (levelA levelB : ℚ) :
    ∀ l : List ℚ, (∀ x ∈ l, x = 0) →
      clWalk 0 levelA levelB l 0 0 0 = (0, 0) := by
  intro l
  induction l with
  | nil => intro _; rfl
  | cons x rest ih =>
      intro h
      have hx : x = 0 := h x (List.mem_cons_self x rest)
      have hr := ih fun y hy => h y (List.mem_cons_of_mem x hy)
      have hnan : jsDiv ((0 : ℚ) + 0) 0 = Flt.nan := by simp [jsDiv]
      simp only [clWalk, hx, hnan, Flt.ge, Bool.false_and, Bool.false_eq_true,
        if_false, add_zero]
      exact hr

/-- Claim C4: on an all-zero density grid the cumulative fraction of
`findCredibleLevels` is the JavaScript `0 / 0` (NaN); since every IEEE
comparison with NaN is false, neither threshold ever latches and both
returned levels are exactly 0 (never NaN). -/
theorem findCredibleLevels_allZero (grid : List (List ℚ))
    (levelA levelB : ℚ) (h : ∀ x ∈ grid.flatten, x = 0) :
    findCredibleLevels grid levelA levelB = (0, 0) := by
  rw [show findCredibleLevels grid levelA levelB =
      clWalk (List.foldl (· + ·) 0 (List.insertionSort (· ≥ ·) grid.flatten))
        levelA levelB (List.insertionSort (· ≥ ·) grid.flatten) 0 0 0 from rfl]
  have hperm := List.perm_insertionSort (· ≥ ·) grid.flatten
  have hflat : ∀ x ∈ List.insertionSort (· ≥ ·) grid.flatten, x = 0 :=
    fun x hx => h x (hperm.subset hx)
  rw [foldl_add_allZero _ hflat 0]
  exact clWalk_allZero levelA levelB _ hflat

/-- Claim C4, witness: a concrete 2×2 all-zero grid. -/
theorem findCredibleLevels_allZero_witness :
    (∀ x ∈ ([[0, 0], [0, 0]] : List (List ℚ)).flatten, x = 0) ∧
      findCredibleLevels [[0, 0], [0, 0]] (68 / 100) (95 / 100) = (0, 0) :=
  ⟨by simp, findCredibleLevels_allZero [[0, 0], [0, 0]] (68 / 100)
    (95 / 100) (by simp)⟩

/-- IEEE `≥` against a finite bound is antitone in the bound. -/
theorem flt_ge_mono {x : Flt} {a b : ℚ} (hab : a ≤ b)
    (h : x.ge (.num b) = true) : x.ge (.num a) = true := by
  cases x with
  | nan => simp [Flt.ge] at h
  | negInf => simp [Flt.ge, Flt.lt] at h
  | posInf => simp [Flt.ge, Flt.lt]
  | num r =>
      simp only [Flt.ge, Flt.lt, Bool.not_eq_true', decide_eq_false_iff_not,
        not_lt] at h ⊢
      exact le_trans hab h

/-- Invariant walk for claim C5: on a descending-sorted non-negative list
with the second level at least the first, the density latched for the
second level never exceeds the density latched for the first. -/
theorem clWalk_level_order (total levelA levelB : ℚ) (hAB : levelA ≤ levelB) :
    ∀ (l : List ℚ) (cum levA : ℚ),
      l.Sorted (· ≥ ·) → (∀ x ∈ l, 0 ≤ x) →
      (levA = 0 ∨ (0 ≤ levA ∧ ∀ x ∈ l, x ≤ levA)) →
      (clWalk total levelA levelB l cum levA 0).2 ≤
          (clWalk total levelA levelB l cum levA 0).1 ∧
        0 ≤ (clWalk total levelA levelB l cum levA 0).1 := by
  intro l
  induction l with
  | nil =>
      intro cum levA _ _ hinv
      have h0 : 0 ≤ levA := by
        rcases hinv with h | h
        · exact h.symm.le
        · exact h.1
      exact ⟨h0, h0⟩
  | cons x rest ih =>
      intro cum levA hsorted hnn hinv
      have hx0 : 0 ≤ x := hnn x (List.mem_cons_self x rest)
      have hrest := List.sorted_cons.mp hsorted
      have hnnr : ∀ y ∈ rest, 0 ≤ y :=
        fun y hy => hnn y (List.mem_cons_of_mem x hy)
      cases hc1 : ((jsDiv (cum + x) total).ge (Flt.num levelA) &&
          (levA == (0 : ℚ))) with
      | true =>
          cases hc2 : (jsDiv (cum + x) total).ge (Flt.num levelB) with
          | true =>
              simp only [clWalk, beq_self_eq_true, Bool.and_true, hc1, hc2,
                if_true]
              exact ⟨le_rfl, hx0⟩
          | false =>
              simp only [clWalk, beq_self_eq_true, Bool.and_true, hc1, hc2,
                Bool.false_eq_true, if_false, if_true]
              exact ih (cum + x) x hrest.2 hnnr
                (Or.inr ⟨hx0, fun y hy => hrest.1 y hy⟩)
      | false =>
          cases hc2 : (jsDiv (cum + x) total).ge (Flt.num levelB) with
          | true =>
              have hgeA : (jsDiv (cum + x) total).ge (Flt.num levelA) = true :=
                flt_ge_mono hAB hc2
              rw [hgeA, Bool.true_and] at hc1
              have hAne : levA ≠ 0 := by simpa using hc1
              rcases hinv with h | h
              · exact absurd h hAne
              · simp only [clWalk, beq_self_eq_true, Bool.and_true, hgeA,
                  Bool.true_and, hc1, Bool.false_eq_true, if_false, hc2,
                  if_true]
                exact ⟨h.2 x (List.mem_cons_self x rest), h.1⟩
          | false =>
              simp only [clWalk, beq_self_eq_true, Bool.and_true, hc1, hc2,
                Bool.false_eq_true, if_false]
              rcases hinv with h | h
              · exact ih (cum + x) levA hrest.2 hnnr (Or.inl h)
              · exact ih (cum + x) levA hrest.2 hnnr
                  (Or.inr ⟨h.1, fun y hy => h.2 y (List.mem_cons_of_mem x hy)⟩)

/-- Claim C5: for a density grid with non-negative entries and positive
total mass, `findCredibleLevels` returns `level68 ≥ level95` (with the
source's default levels 0.68 and 0.95). -/
theorem findCredibleLevels_level_order (grid : List (List ℚ))
    (hnn : ∀ x ∈ grid.flatten, 0 ≤ x) (htot : 0 < grid.flatten.sum) :
    (findCredibleLevels grid (68 / 100) (95 / 100)).2 ≤
      (findCredibleLevels grid (68 / 100) (95 / 100)).1 := by
  rw [show findCredibleLevels grid (68 / 100) (95 / 100) =
      clWalk (List.foldl (· + ·) 0 (List.insertionSort (· ≥ ·) grid.flatten))
        (68 / 100) (95 / 100) (List.insertionSort (· ≥ ·) grid.flatten)
        0 0 0 from rfl]
  have hperm := List.perm_insertionSort (· ≥ ·) grid.flatten
  exact (clWalk_level_order _ _ _ (by norm_num) _ 0 0
    (List.sorted_insertionSort (· ≥ ·) grid.flatten)
    (fun x hx => hnn x (hperm.subset hx)) (Or.inl rfl)).1

/-- Claim C5, witness: a concrete positive 2×2 grid; the walk latches
level68 at density 3/10 and level95 at density 1/10. -/
theorem findCredibleLevels_level_order_witness :
    (∀ x ∈ ([[1 / 10, 2 / 10], [3 / 10, 4 / 10]] : List (List ℚ)).flatten,
      0 ≤ x) ∧ 0 < ([[1 / 10, 2 / 10], [3 / 10, 4 / 10]] :
        List (List ℚ)).flatten.sum ∧
      (findCredibleLevels [[1 / 10, 2 / 10], [3 / 10, 4 / 10]]
            (68 / 100) (95 / 100)).2 ≤
        (findCredibleLevels [[1 / 10, 2 / 10], [3 / 10, 4 / 10]]
            (68 / 100) (95 / 100)).1 :=
  ⟨by norm_num, by norm_num,
    findCredibleLevels_level_order [[1 / 10, 2 / 10], [3 / 10, 4 / 10]]
      (by norm_num) (by norm_num)⟩

/-- The instrumented recursion computes the same value as the source
recursion. -/
theorem adaptiveSimpsonRecCnt_fst_aux (f : ℚ → ℚ) :
    ∀ (n : ℕ) (a0 b0 fa0 fb0 fm0 I0 tol0 : ℚ) (depth : ℤ), depth.toNat ≤ n →
      (adaptiveSimpsonRecCnt f a0 b0 fa0 fb0 fm0 I0 tol0 depth).1 =
        adaptiveSimpsonRec f a0 b0 fa0 fb0 fm0 I0 tol0 depth := by
  intro n
  induction n with
  | zero =>
      intro a0 b0 fa0 fb0 fm0 I0 tol0 depth hn
      have hd : depth ≤ 0 := by omega
      rw [adaptiveSimpsonRecCnt.eq_def, adaptiveSimpsonRec.eq_def,
        dif_pos (Or.inl hd), dif_pos (Or.inl hd)]
  | succ n ih =>
      intro a0 b0 fa0 fb0 fm0 I0 tol0 depth hn
      rw [adaptiveSimpsonRecCnt.eq_def, adaptiveSimpsonRec.eq_def]
      dsimp only
      split
      next h =>
          rfl
      next h =>
          have hd : 0 < depth := by
            by_contra hh
            exact h (Or.inl (by omega))
          rw [ih, ih]
          · omega
          · omega

/-- The instrumented recursion performs at most `2^(depth.toNat + 3) - 2`
integrand evaluations: the depth counter strictly decreases on each
bisection, so the work is bounded by the depth budget. -/
theorem adaptiveSimpsonRecCnt_le_aux (f : ℚ → ℚ) :
    ∀ (n : ℕ) (a0 b0 fa0 fb0 fm0 I0 tol0 : ℚ) (depth : ℤ), depth.toNat ≤ n →
      (adaptiveSimpsonRecCnt f a0 b0 fa0 fb0 fm0 I0 tol0 depth).2 ≤
        2 ^ (depth.toNat + 3) - 2 := by
  intro n
  induction n with
  | zero =>
      intro a0 b0 fa0 fb0 fm0 I0 tol0 depth hn
      have hd : depth ≤ 0 := by omega
      rw [adaptiveSimpsonRecCnt.eq_def, dif_pos (Or.inl hd)]
      dsimp only
      have h8 : (8 : ℕ) ≤ 2 ^ (depth.toNat + 3) := by
        calc (8 : ℕ) = 2 ^ 3 := rfl
        _ ≤ 2 ^ (depth.toNat + 3) := Nat.pow_le_pow_right (by norm_num) (by omega)
      omega
  | succ n ih =>
      intro a0 b0 fa0 fb0 fm0 I0 tol0 depth hn
      rw [adaptiveSimpsonRecCnt.eq_def]
      dsimp only
      split
      next h =>
          have h8 : (8 : ℕ) ≤ 2 ^ (depth.toNat + 3) := by
            calc (8 : ℕ) = 2 ^ 3 := rfl
            _ ≤ 2 ^ (depth.toNat + 3) :=
              Nat.pow_le_pow_right (by norm_num) (by omega)
          omega
      next h =>
          have hd : 0 < depth := by
            by_contra hh
            exact h (Or.inl (by omega))
          have key : ∀ (a b c d e I t : ℚ),
              (adaptiveSimpsonRecCnt f a b c d e I t (depth - 1)).2 ≤
                2 ^ (depth.toNat + 2) - 2 := by
            intro a b c d e I t
            have h1 := ih a b c d e I t (depth - 1) (by omega)
            have heq : (depth - 1).toNat + 3 = depth.toNat + 2 := by omega
            rwa [heq] at h1
          refine le_trans (Nat.add_le_add
            (Nat.add_le_add_left (key _ _ _ _ _ _ _) 2)
            (key _ _ _ _ _ _ _)) ?_
          have hp : (2 : ℕ) ^ (depth.toNat + 3) = 2 ^ (depth.toNat + 2) * 2 :=
            pow_succ 2 _
          have h4 : (4 : ℕ) ≤ 2 ^ (depth.toNat + 2) := by
            calc (4 : ℕ) = 2 ^ 2 := rfl
            _ ≤ 2 ^ (depth.toNat + 2) :=
              Nat.pow_le_pow_right (by norm_num) (by omega)
          omega

/-- Claim C7: the adaptive Simpson recursion terminates on every
integrand, interval and tolerance (it is a total function of a strictly
decreasing depth counter): whenever the depth budget is exhausted
(`depth ≤ 0`) or the error test `|I2 - I0| < 15·tol` passes, it returns
the Richardson-corrected estimate `I2 + (I2 - I0)/15` unconditionally;
and its total work, measured by the instrumented evaluation count, is
bounded by `2^(depth.toNat + 3) - 2`. -/
theorem adaptiveSimpson_budget (f : ℚ → ℚ)
    (a0 b0 fa0 fb0 fm0 I0 tol0 : ℚ) (depth : ℤ) :
    ((depth ≤ 0 ∨ |simpsonHalves f a0 b0 fa0 fb0 fm0 - I0| < 15 * tol0) →
      adaptiveSimpsonRec f a0 b0 fa0 fb0 fm0 I0 tol0 depth =
        simpsonHalves f a0 b0 fa0 fb0 fm0 +
          (simpsonHalves f a0 b0 fa0 fb0 fm0 - I0) / 15)
    ∧ (adaptiveSimpsonRecCnt f a0 b0 fa0 fb0 fm0 I0 tol0 depth).1 =
        adaptiveSimpsonRec f a0 b0 fa0 fb0 fm0 I0 tol0 depth
    ∧ (adaptiveSimpsonRecCnt f a0 b0 fa0 fb0 fm0 I0 tol0 depth).2 ≤
        2 ^ (depth.toNat + 3) - 2 := by
  refine ⟨?_, adaptiveSimpsonRecCnt_fst_aux f depth.toNat a0 b0 fa0 fb0 fm0
    I0 tol0 depth le_rfl, adaptiveSimpsonRecCnt_le_aux f depth.toNat a0 b0
    fa0 fb0 fm0 I0 tol0 depth le_rfl⟩
  intro h
  simp only [simpsonHalves] at h ⊢
  rw [adaptiveSimpsonRec.eq_def, dif_pos h]

/-- Claim C7, witness: the zero integrand on `[0, 1]` with the depth
budget already exhausted returns the Richardson-corrected value (here 0)
and performs exactly two evaluations. -/
theorem adaptiveSimpson_budget_witness :
    adaptiveSimpsonRec (fun _ => (0 : ℚ)) 0 1 0 0 0 0 1 0 = 0 ∧
      (adaptiveSimpsonRecCnt (fun _ => (0 : ℚ)) 0 1 0 0 0 0 1 0).2 ≤
        2 ^ 3 - 2 := by
  have h := adaptiveSimpson_budget (fun _ => (0 : ℚ)) 0 1 0 0 0 0 1 0
  constructor
  · rw [h.1 (Or.inl le_rfl)]
    norm_num [simpsonHalves, simpson]
  · simpa using h.2.2

/-- One `buildCosmologyCache` call from any invariant-satisfying state
returns exactly the pure table for its key, leaves the slot holding that
key and table, and preserves the invariant. -/
theorem buildCosmologyCache_step (pr : Prims) (zMax : ℚ) (nz : ℕ)
    (st : CacheState) (h : cacheGood pr st) :
    (buildCosmologyCache pr zMax nz st).1 = buildTable pr zMax nz ∧
      (buildCosmologyCache pr zMax nz st).2 =
        some ((zMax, nz), buildTable pr zMax nz) ∧
      cacheGood pr (buildCosmologyCache pr zMax nz st).2 := by
  have hgoal : (buildCosmologyCache pr zMax nz st).1 = buildTable pr zMax nz ∧
      (buildCosmologyCache pr zMax nz st).2 =
        some ((zMax, nz), buildTable pr zMax nz) := by
    cases st with
    | none => exact ⟨rfl, rfl⟩
    | some kt =>
        obtain ⟨key, tbl⟩ := kt
        by_cases hk : key = (zMax, nz)
        · subst hk
          have htbl : tbl = buildTable pr zMax nz := by
            simpa using h (zMax, nz) tbl rfl
          simp [buildCosmologyCache, htbl]
        · simp [buildCosmologyCache, hk]
  refine ⟨hgoal.1, hgoal.2, ?_⟩
  intro k t hkt
  rw [hgoal.2] at hkt
  injection hkt with hkt
  injection hkt with hk ht
  subst hk
  subst ht
  rfl

/-- Every cache state reachable from the empty cache satisfies the
invariant. -/
theorem runCacheCalls_good (pr : Prims) (calls : List (ℚ × ℕ)) :
    ∀ st, cacheGood pr st → cacheGood pr (runCacheCalls pr calls st) := by
  induction calls with
  | nil => exact fun st h => h
  | cons c cs ih =>
      intro st h
      exact ih _ (buildCosmologyCache_step pr c.1 c.2 st h).2.2

/-- Claim C8: after any sequence of calls starting from the empty cache,
`buildCosmologyCache` behaves as the pure function `buildTable` of its
key: the returned table equals a fresh unmemoized computation, the single
slot afterwards holds exactly that key and table (a new key discards the
old entry), and a call whose key is already cached returns the stored
table with the state unchanged. -/
theorem buildCosmologyCache_pure (pr : Prims) (calls : List (ℚ × ℕ))
    (zMax : ℚ) (nz : ℕ) :
    (buildCosmologyCache pr zMax nz (runCacheCalls pr calls none)).1 =
        buildTable pr zMax nz
    ∧ (buildCosmologyCache pr zMax nz (runCacheCalls pr calls none)).2 =
        some ((zMax, nz), buildTable pr zMax nz)
    ∧ (runCacheCalls pr calls none =
          some ((zMax, nz), buildTable pr zMax nz) →
        buildCosmologyCache pr zMax nz (runCacheCalls pr calls none) =
          (buildTable pr zMax nz, runCacheCalls pr calls none)) := by
  have hnone : cacheGood pr (none : CacheState) := by
    intro k t h
    exact absurd h (by simp)
  have hgood := runCacheCalls_good pr calls none hnone
  have hstep := buildCosmologyCache_step pr zMax nz _ hgood
  refine ⟨hstep.1, hstep.2.1, ?_⟩
  intro hhit
  rw [hhit]
  simp [buildCosmologyCache]

/-- Claim C8, witness: after the call sequence `[(1, 2)]` the slot holds
the key `(1, 2)`, and a repeated call returns the cached table with the
state unchanged. -/
theorem buildCosmologyCache_pure_witness :
    buildCosmologyCache prW 1 2 (runCacheCalls prW [(1, 2)] none) =
      (buildTable prW 1 2, runCacheCalls prW [(1, 2)] none) :=
  (buildCosmologyCache_pure prW [(1, 2)] 1 2).2.2 rfl

/-- One walker update appends exactly one sample and one log-probability
when the sweep is past burn-in, and none otherwise. -/
theorem walkerUpdate_len (pr : Prims) (pta : PTAData) (popts : PostOptions)
    (rng : ℕ → ℚ) (nW fuel burnStart step w : ℕ) (st st' : RunState)
    (h : walkerUpdate pr pta popts rng nW fuel burnStart step w st = some st') :
    st'.samples.length =
        st.samples.length + (if burnStart ≤ step then 1 else 0) ∧
      st'.logProbs.length =
        st.logProbs.length + (if burnStart ≤ step then 1 else 0) := by
  unfold walkerUpdate at h
  cases hp : pickJ rng nW w st.idx fuel with
  | none =>
      rw [hp] at h
      exact absurd h (by simp)
  | some ji =>
      obtain ⟨j, i1⟩ := ji
      rw [hp] at h
      dsimp only at h
      injection h with h
      subst h
      by_cases hb : burnStart ≤ step <;> simp [hb]

/-- One sweep over a list of walker indices appends one sample per index
when past burn-in. -/
theorem sweepFrom_len (pr : Prims) (pta : PTAData) (popts : PostOptions)
    (rng : ℕ → ℚ) (nW fuel burnStart step : ℕ) :
    ∀ (ws : List ℕ) (st st' : RunState),
      sweepFrom pr pta popts rng nW fuel burnStart step ws st = some st' →
      st'.samples.length =
          st.samples.length + (if burnStart ≤ step then ws.length else 0) ∧
        st'.logProbs.length =
          st.logProbs.length + (if burnStart ≤ step then ws.length else 0) := by
  intro ws
  induction ws with
  | nil =>
      intro st st' h
      injection h with h
      subst h
      simp
  | cons w ws ih =>
      intro st st' h
      unfold sweepFrom at h
      cases hu : walkerUpdate pr pta popts rng nW fuel burnStart step w st with
      | none =>
          rw [hu] at h
          exact absurd h (by simp)
      | some st1 =>
          rw [hu] at h
          have h1 := walkerUpdate_len pr pta popts rng nW fuel burnStart step
            w st st1 hu
          have h2 := ih st1 st' h
          by_cases hb : burnStart ≤ step <;>
            simp only [hb, if_true, if_false, List.length_cons] at h1 h2 ⊢ <;>
            omega

/-- Running a list of sweeps appends `nW` samples per post-burn-in sweep. -/
theorem runFrom_len (pr : Prims) (pta : PTAData) (popts : PostOptions)
    (rng : ℕ → ℚ) (nW fuel burnStart : ℕ) :
    ∀ (ss : List ℕ) (st st' : RunState),
      runFrom pr pta popts rng nW fuel burnStart ss st = some st' →
      st'.samples.length = st.samples.length +
          (ss.map fun s => if burnStart ≤ s then nW else 0).sum ∧
        st'.logProbs.length = st.logProbs.length +
          (ss.map fun s => if burnStart ≤ s then nW else 0).sum := by
  intro ss
  induction ss with
  | nil =>
      intro st st' h
      injection h with h
      subst h
      simp
  | cons s ss ih =>
      intro st st' h
      unfold runFrom at h
      cases hs : sweepFrom pr pta popts rng nW fuel burnStart s
          (List.range nW) st with
      | none =>
          rw [hs] at h
          exact absurd h (by simp)
      | some st1 =>
          rw [hs] at h
          have h1 := sweepFrom_len pr pta popts rng nW fuel burnStart s
            (List.range nW) st st1 hs
          have h2 := ih st1 st' h
          rw [List.length_range] at h1
          rw [List.map_cons, List.sum_cons]
          by_cases hb : burnStart ≤ s
          · simp only [if_pos hb] at h1 ⊢
            omega
          · simp only [if_neg hb] at h1 ⊢
            omega

/-- The total count of per-sweep recordings over sweeps `0, …, n-1`. -/
theorem sum_range_if (bs n nW : ℕ) :
    ((List.range n).map fun s => if bs ≤ s then nW else 0).sum =
      nW * (n - bs) := by
  induction n with
  | zero => simp
  | succ n ih =>
      rw [List.range_succ, List.map_append, List.sum_append]
      by_cases hb : bs ≤ n
      · have he : n + 1 - bs = (n - bs) + 1 := by omega
        simp only [List.map_cons, List.map_nil, List.sum_cons, List.sum_nil,
          if_pos hb, ih, he, Nat.mul_succ]
        omega
      · have he : n + 1 - bs = n - bs := by omega
        simp only [List.map_cons, List.map_nil, List.sum_cons, List.sum_nil,
          if_neg hb, ih, he]
        omega

/-- Claim C6: a completed `runEnsembleMCMC` run with `nWalkers ≥ 2`,
`nSteps ≥ 1` and burn-in fraction in `[0, 1)` returns samples and
log-probability lists of length exactly
`nWalkers × (nSteps − floor(nSteps · burnIn))` — one record per walker
per post-burn-in sweep. -/
theorem runEnsembleMCMC_sampleCount (pr : Prims) (pta : PTAData)
    (opts : MCMCOptions) (rng : ℕ → ℚ) (fuel : ℕ)
    (hW : 2 ≤ opts.nWalkers) (hS : 1 ≤ opts.nSteps)
    (hb0 : 0 ≤ opts.burnIn) (hb1 : opts.burnIn < 1) :
    ∀ r, runEnsembleMCMC pr pta opts rng fuel = some r →
      r.samples.length = opts.nWalkers * (opts.nSteps -
          (Int.floor ((opts.nSteps : ℚ) * opts.burnIn)).toNat) ∧
        r.logProbs.length = opts.nWalkers * (opts.nSteps -
          (Int.floor ((opts.nSteps : ℚ) * opts.burnIn)).toNat) := by
  intro r h
  unfold runEnsembleMCMC at h
  dsimp only at h
  split at h
  next heq => exact absurd h (by simp)
  next st heq =>
      injection h with h
      subst h
      have hl := runFrom_len pr pta _ rng opts.nWalkers fuel _ _ _ _ heq
      rw [sum_range_if] at hl
      simpa using hl

/-- Claim C6, witness: the two-walker, one-sweep, zero-burn-in run with
the concrete random sequence `rngW` completes and retains exactly
`2 × (1 − 0) = 2` samples and two log-probabilities. -/
theorem runEnsembleMCMC_sampleCount_witness :
    runEnsembleMCMC prW ptaE mcOptsW rngW 3 = some resW ∧
      resW.samples.length = mcOptsW.nWalkers * (mcOptsW.nSteps -
        (Int.floor ((mcOptsW.nSteps : ℚ) * mcOptsW.burnIn)).toNat) ∧
      resW.logProbs.length = mcOptsW.nWalkers * (mcOptsW.nSteps -
        (Int.floor ((mcOptsW.nSteps : ℚ) * mcOptsW.burnIn)).toNat) := by
  have hkey : runEnsembleMCMC prW ptaE mcOptsW rngW 3 = some resW := by
    with_unfolding_all rfl
  have hlen := runEnsembleMCMC_sampleCount prW ptaE mcOptsW rngW 3
    (by norm_num [mcOptsW]) (by norm_num [mcOptsW])
    (by norm_num [mcOptsW]) (by norm_num [mcOptsW]) resW hkey
  exact ⟨hkey, hlen.1, hlen.2⟩

/-- Claim C9: two runs of `runEnsembleMCMC` with the same data, options
and fuel, whose random sources produce the same number sequence, return
identical results — the same samples in the same (walker-major within
each sweep, sweep-major across sweeps) order, the same log-probability
list, and the same acceptance rate. -/
theorem runEnsembleMCMC_reproducible (pr : Prims) (pta : PTAData)
    (opts : MCMCOptions) (fuel : ℕ) (rng1 rng2 : ℕ → ℚ)
    (h : ∀ n, rng1 n = rng2 n) :
    runEnsembleMCMC pr pta opts rng1 fuel =
      runEnsembleMCMC pr pta opts rng2 fuel := by
  rw [funext h]

/-- Claim C9, witness: the witness random sequence and a pointwise-equal
but syntactically different copy drive identical runs. -/
theorem runEnsembleMCMC_reproducible_witness :
    runEnsembleMCMC prW ptaE mcOptsW rngW 3 =
      runEnsembleMCMC prW ptaE mcOptsW (fun n => rngW (n + 0)) 3 :=
  runEnsembleMCMC_reproducible prW ptaE mcOptsW 3 rngW (fun n => rngW (n + 0))
    fun n => by simp

/-- Claim C10: when the current walker's log-probability and the
proposal's log-posterior are both negative infinity, the log-acceptance
ratio is `log z + (−∞ − (−∞)) = NaN`, every IEEE comparison against NaN
is false, so the proposal is rejected: the ensemble and the acceptance
counter are unchanged (the decision is total and deterministic). -/
theorem walkerUpdate_doubleNegInf_rejects (pr : Prims) (pta : PTAData)
    (popts : PostOptions) (rng : ℕ → ℚ) (nW fuel burnStart step w j i1 : ℕ)
    (st st' : RunState)
    (hj : pickJ rng nW w st.idx fuel = some (j, i1))
    (hcur : (st.walkers.getD w default).logProb = Flt.negInf)
    (hprop : logPosterior pr
        (propose (st.walkers.getD j default) (st.walkers.getD w default)
          (((mcmcA - 1) * rng i1 + 1) ^ 2 / mcmcA)).1
        (propose (st.walkers.getD j default) (st.walkers.getD w default)
          (((mcmcA - 1) * rng i1 + 1) ^ 2 / mcmcA)).2 pta popts = Flt.negInf)
    (hrun : walkerUpdate pr pta popts rng nW fuel burnStart step w st =
      some st') :
    (∀ x y : Flt, x.lt (y.add (Flt.sub Flt.negInf Flt.negInf)) = false) ∧
      st'.walkers = st.walkers ∧ st'.acceptances = st.acceptances := by
  have hnanlt : ∀ x y : Flt,
      x.lt (y.add (Flt.sub Flt.negInf Flt.negInf)) = false := by
    intro x y
    cases x <;> cases y <;> rfl
  refine ⟨hnanlt, ?_⟩
  unfold walkerUpdate at hrun
  rw [hj] at hrun
  dsimp only at hrun
  rw [hcur, hprop] at hrun
  rw [hnanlt] at hrun
  simp only [Bool.false_eq_true, if_false] at hrun
  injection hrun with hrun
  subst hrun
  exact ⟨rfl, rfl⟩

/-- Claim C10, witness: the concrete state `stC` (both walkers at
`Gmu = 1`, outside the prior box, with log-probability negative
infinity), a constant random source, and burn-in not yet reached:
the update leaves the ensemble and acceptance count unchanged. -/
theorem walkerUpdate_doubleNegInf_rejects_witness :
    stC2.walkers = stC.walkers ∧ stC2.acceptances = stC.acceptances :=
  (walkerUpdate_doubleNegInf_rejects prW ptaE poptsW rngC 2 3 1 0 0 1 1
    stC stC2 (by with_unfolding_all rfl) rfl
    (by with_unfolding_all rfl) (by with_unfolding_all rfl)).2

end SGWB
